import Mathlib

/-!
# Verification of `scripts/precompute-eval-embeddings.py`

A shallow embedding of the dataset-construction pipeline of
`precompute-eval-embeddings.py` (annotation loading, query selection,
candidate sampling, snippet resolution, and dataset assembly), together
with theorems settling the specification claims about it.

Modelling conventions:
* Python exceptions are modelled by `Option` (`none` = an exception was
  raised / caught, depending on context; each definition's comment says
  which).
* The network is modelled as an explicit function `String → Option String`
  (URL to fetched-and-decoded text, `none` = any fetch/decode failure).
* Python `int` is arbitrary precision, so relevance values are `Int` and
  line numbers are `Nat` (the regex only ever yields digit strings).
* Strings are manipulated through their `List Char` data where convenient;
  `String.mk` packs character lists built by the f-string models.
-/

namespace Gitask

/-! ## Configuration constants (from the `Config` block of the script) -/

def TARGET_QUERIES : Nat := 25

def MAX_CANDIDATES : Nat := 12

def MIN_POSITIVES : Nat := 2

def RELEVANCE_THRESHOLD : Int := 2

/-! ## Data model -/

/-- One row of the annotation CSV (`csv.DictReader` output restricted to the
columns the script reads).  All fields are raw strings, as `DictReader`
produces them. -/
structure Row where
  Language : String
  Query : String
  GitHubUrl : String
  Relevance : String
deriving DecidableEq, Repr

/-- One candidate of a query: the dict `{"url": ..., "relevance": ...}`
built in the `by_query` grouping loop. -/
structure Candidate where
  url : String
  relevance : Int
deriving DecidableEq, Repr

/-! ## Annotation loading

`int(r["Relevance"] or 0)`: Python first evaluates `r["Relevance"] or 0`
(the empty string is falsy, so an empty field becomes the integer `0`),
then applies `int`.  `int` on a non-empty string succeeds exactly when the
string is a decimal integer literal (optionally signed, surrounding
whitespace allowed); otherwise it raises `ValueError`, which the loading
loop does not catch.  `pyInt?` models `int` on strings (`none` = raised);
underscore digit grouping and non-ASCII digits, which CPython also
accepts, are not modelled — no claim depends on them. -/

/-- Value of a non-empty, all-digit character list. -/
def digitsVal (cs : List Char) : Nat :=
  cs.foldl (fun a c => 10 * a + (c.toNat - 48)) 0

/-- Strip leading and trailing whitespace (ASCII; CPython also strips the
rarer Unicode whitespace characters, which the feed does not contain). -/
def pyStripChars (cs : List Char) : List Char :=
  ((cs.dropWhile Char.isWhitespace).reverse.dropWhile Char.isWhitespace).reverse

/-- Python `int(s)` for a string `s` (decimal only, as `int` is called with
one argument): `none` models a raised `ValueError`. -/
def pyInt? (s : String) : Option Int :=
  let t := pyStripChars s.data
  match t with
  | '+' :: rest => if rest ≠ [] ∧ rest.all Char.isDigit then some (digitsVal rest) else none
  | '-' :: rest => if rest ≠ [] ∧ rest.all Char.isDigit then some (-(digitsVal rest : Int)) else none
  | rest => if rest ≠ [] ∧ rest.all Char.isDigit then some (digitsVal rest) else none

/-- `int(r["Relevance"] or 0)`: the empty string is falsy and defaults to
`0`; any other string goes through `int`. -/
def parseRelevance (s : String) : Option Int :=
  if s = "" then some 0 else pyInt? s

/-- `defaultdict(list)` grouping step: append candidate `c` to the entry of
key `q`, creating the entry at the end when absent (Python dicts preserve
insertion order). -/
def insertGrouped (acc : List (String × List Candidate)) (q : String) (c : Candidate) :
    List (String × List Candidate) :=
  match acc with
  | [] => [(q, [c])]
  | (k, vs) :: rest =>
      if k = q then (k, vs ++ [c]) :: rest else (k, vs) :: insertGrouped rest q c

/-- The `for r in py_rows` grouping loop over already-filtered rows;
`none` models the uncaught `ValueError` from `int`. -/
def by_queryAux (acc : List (String × List Candidate)) :
    List Row → Option (List (String × List Candidate))
  | [] => some acc
  | r :: rest =>
      match parseRelevance r.Relevance with
      | none => none
      | some rel => by_queryAux (insertGrouped acc r.Query ⟨r.GitHubUrl, rel⟩) rest

/-- `by_query`: filter to `Language == "Python"` rows and group them by
query text.  The result is the dict as an insertion-ordered association
list; `none` models an uncaught exception during loading. -/
def by_query (rows : List Row) : Option (List (String × List Candidate)) :=
  by_queryAux [] (rows.filter (fun r => r.Language = "Python"))

/-! ## Query selection -/

/-- `sum(1 for c in cs if c["relevance"] >= RELEVANCE_THRESHOLD)`. -/
def positivesCount (cs : List Candidate) : Nat :=
  (cs.filter (fun c => RELEVANCE_THRESHOLD ≤ c.relevance)).length

/-- The comparison `sorted(..., key=lambda x: -positives(x))` induces:
`a` may come before `b` iff `positives(b) ≤ positives(a)`. -/
def selLE (a b : String × List Candidate) : Bool :=
  positivesCount b.2 ≤ positivesCount a.2

/-- The list-comprehension filter of `good_queries`: queries with at least
`MIN_POSITIVES` positive candidates. -/
def qualifying (byQuery : List (String × List Candidate)) :
    List (String × List Candidate) :=
  byQuery.filter (fun p => MIN_POSITIVES ≤ positivesCount p.2)

/-- `good_queries`: qualifying queries, stably sorted by positive count
descending (Python's `sorted` is a stable sort, modelled by
`List.mergeSort`, which is stable), truncated to `TARGET_QUERIES`. -/
def good_queries (byQuery : List (String × List Candidate)) :
    List (String × List Candidate) :=
  ((qualifying byQuery).mergeSort selLE).take TARGET_QUERIES

/-! ## Candidate sampling -/

/-- Python list slice `l[:n]` for an arbitrary (possibly negative) `n`:
a negative bound counts from the end, clamped at zero. -/
def pyTake (l : List α) (n : Int) : List α :=
  if 0 ≤ n then l.take n.toNat else l.take (l.length - (-n).toNat)

/-- The `positives` list of the sampling loops. -/
def positivesOf (cs : List Candidate) : List Candidate :=
  cs.filter (fun c => RELEVANCE_THRESHOLD ≤ c.relevance)

/-- The `negatives` list of the sampling loops. -/
def negativesOf (cs : List Candidate) : List Candidate :=
  cs.filter (fun c => c.relevance < RELEVANCE_THRESHOLD)

/-- `selected = positives + negatives[:MAX_CANDIDATES - len(positives)]`
(note the slice bound may be negative). -/
def sampleCandidates (cs : List Candidate) : List Candidate :=
  positivesOf cs ++ pyTake (negativesOf cs) ((MAX_CANDIDATES : Int) - (positivesOf cs).length)

/-! ## Locator parsing (`github_url_to_raw`)

The script matches the URL against the Python regex

` https://github\.com/([^/]+)/([^/]+)/blob/([^/]+)/(.+?)(?:#L(\d+)(?:-L(\d+))?)?$ `

with `re.match`.  Since `[^/]+` cannot cross a `/` and each group is
followed by a literal `/`, the `owner`, `repo` and `sha` groups are forced
to be the (non-empty) segments up to the next slash.  The lazy `(.+?)`
followed by the end-anchored optional fragment means: the path is the
shortest non-empty prefix of the remainder whose suffix is either empty or
a well-formed `#L<digits>(-L<digits>)?` fragment reaching the end — i.e.
scanning left to right, the first position at which such a fragment (or
the end of the string) starts.  The model assumes the URL contains no
newline (Python `.` does not match `\n` and `$` also matches before a
trailing newline; CSV URL fields contain neither). -/

/-- Match a literal prefix, returning the remainder. -/
def stripPrefixChars : List Char → List Char → Option (List Char)
  | [], cs => some cs
  | _ :: _, [] => none
  | p :: pre, c :: cs => if c = p then stripPrefixChars pre cs else none

/-- One `([^/]+)/` group: the non-empty run up to the first `/`, plus the
remainder after that `/`. -/
def splitSeg (cs : List Char) : Option (List Char × List Char) :=
  let seg := cs.takeWhile (fun c => c ≠ '/')
  let rest := cs.dropWhile (fun c => c ≠ '/')
  match rest with
  | '/' :: r => if seg = [] then none else some (seg, r)
  | _ => none

/-- `#L(\d+)(?:-L(\d+))?$` on a suffix: the two captured line numbers
(the second optional).  Greedy `\d+` with the end anchor is equivalent to
taking the maximal digit run and requiring the rest to be empty or
`-L<digits>` to the end. -/
def parseFrag (cs : List Char) : Option (Nat × Option Nat) :=
  match cs with
  | c1 :: c2 :: rest =>
      if c1 = '#' ∧ c2 = 'L' then
        let ds := rest.takeWhile Char.isDigit
        let tl := rest.dropWhile Char.isDigit
        if ds = [] then none
        else
          match tl with
          | [] => some (digitsVal ds, none)
          | t1 :: t2 :: ds2 =>
              if t1 = '-' ∧ t2 = 'L' ∧ ds2 ≠ [] ∧ ds2.all Char.isDigit then
                some (digitsVal ds, some (digitsVal ds2))
              else none
          | _ => none
      else none
  | _ => none

/-- The lazy `(.+?)(?:#L(\d+)(?:-L(\d+))?)?$` tail: grow the path one
character at a time (it must be non-empty), and at each point prefer a
well-formed fragment reaching the end; an exhausted remainder means the
whole tail is the path with no fragment. -/
def splitPathFragAux (path : List Char) : List Char → List Char × Option (Nat × Option Nat)
  | [] => (path, none)
  | c :: rest =>
      match parseFrag (c :: rest) with
      | some frag => (path, some frag)
      | none => splitPathFragAux (path ++ [c]) rest

/-- Split the post-`sha` remainder into path and optional line fragment;
`none` when the remainder is empty (`(.+?)` needs at least one char). -/
def splitPathFrag : List Char → Option (List Char × Option (Nat × Option Nat))
  | [] => none
  | c :: rest => some (splitPathFragAux [c] rest)

/-- `github_url_to_raw`: parse a blob GitHub URL into the raw URL plus the
line range; `none` models the raised `ValueError` on a non-matching URL.
`start = int(l1) if l1 else 1`, `end = int(l2) if l2 else start + 40`. -/
def github_url_to_raw (url : String) : Option (String × Nat × Nat) :=
  match stripPrefixChars "https://github.com/".data url.data with
  | none => none
  | some r1 =>
  match splitSeg r1 with
  | none => none
  | some (owner, r2) =>
  match splitSeg r2 with
  | none => none
  | some (repo, r3) =>
  match stripPrefixChars "blob/".data r3 with
  | none => none
  | some r4 =>
  match splitSeg r4 with
  | none => none
  | some (sha, r5) =>
  match splitPathFrag r5 with
  | none => none
  | some (path, frag) =>
      let start := match frag with | some (l1, _) => l1 | none => 1
      let stop := match frag with | some (_, some l2) => l2 | _ => start + 40
      some (String.mk ("https://raw.githubusercontent.com/".data ++
              owner ++ '/' :: repo ++ '/' :: sha ++ '/' :: path), start, stop)

/-! ## Snippet resolution (`fetch_code`) -/

/-- Python `str.splitlines` restricted to the `\n`, `\r\n` and `\r`
terminators (the feed never contains the exotic Unicode line breaks that
CPython additionally recognises): terminators end a line and a final
unterminated non-empty remainder is kept; the empty string has no lines. -/
def splitlinesAux (acc : List Char) : List Char → List (List Char)
  | [] => if acc = [] then [] else [acc.reverse]
  | '\n' :: rest => acc.reverse :: splitlinesAux [] rest
  | '\r' :: '\n' :: rest => acc.reverse :: splitlinesAux [] rest
  | '\r' :: rest => acc.reverse :: splitlinesAux [] rest
  | c :: rest => splitlinesAux (c :: acc) rest

/-- `content.splitlines()`. -/
def splitlines (s : String) : List String :=
  (splitlinesAux [] s.data).map String.mk

/-- The clamped slice `lines[max(0, start - 1) : min(len(lines), end)]`
(`Nat` subtraction is the `max(0, ·)`). -/
def clampSlice (lines : List String) (start stop : Nat) : List String :=
  let s := start - 1
  let e := min lines.length stop
  (lines.drop s).take (e - s)

/-- `fetch_code`: parse the locator, fetch the raw text (the `fetch`
argument models `urllib.request.urlopen` + `read` + tolerant decode:
`none` is any network/HTTP error), clamp the line range, join, trim,
reject snippets under 30 chars and cap at 2000 chars.  Every exception
path collapses to `none` (the `try`/`except Exception` wrapper). -/
def fetch_code (fetch : String → Option String) (url : String) : Option String :=
  match github_url_to_raw url with
  | none => none
  | some (rawUrl, start, stop) =>
      match fetch rawUrl with
      | none => none
      | some content =>
          let lines := splitlines content
          -- `"\n".join(...).strip()`, `len(snippet)` and `snippet[:2000]` all
          -- operate on the code-point sequence, modelled on `List Char`.
          let snippet := pyStripChars (String.intercalate "\n" (clampSlice lines start stop)).data
          if snippet.length < 30 then none else some (String.mk (snippet.take 2000))

/-! ## Identifier formatting

`qid = f"q_{qi:02d}"` and `cid = f"{qid}_c{counter:02d}"`.  `%02d`
formatting of a non-negative integer is its decimal digits, left-padded
with `'0'` to width two.  The decimal conversion is written with explicit
fuel so that it is structurally recursive (and hence evaluates by
`decide`/`rfl`); `natDigitsFuel (n+1) n` always has enough fuel. -/

/-- Decimal digits of `n` (most significant first), fuel-driven. -/
def natDigitsFuel : Nat → Nat → List Char
  | 0, _ => []
  | f + 1, n =>
      if n < 10 then [Char.ofNat (48 + n)]
      else natDigitsFuel f (n / 10) ++ [Char.ofNat (48 + n % 10)]

/-- Decimal digits of `n`, most significant first. -/
def natDigits (n : Nat) : List Char :=
  natDigitsFuel (n + 1) n

/-- `f"{n:02d}"` for `n : Nat`, as a character list. -/
def pad2 (n : Nat) : List Char :=
  if n < 10 then '0' :: natDigits n else natDigits n

/-- `qid = f"q_{qi:02d}"`. -/
def qidStr (qi : Nat) : String :=
  String.mk ('q' :: '_' :: pad2 qi)

/-- `cid = f"{qid}_c{counter:02d}"` with `qid = qidStr qi`. -/
def cidStr (qi k : Nat) : String :=
  String.mk ('q' :: '_' :: pad2 qi ++ '_' :: 'c' :: pad2 k)

/-! ## Dataset assembly -/

/-- A resolved chunk (the dict appended to `q_chunks`). -/
structure Chunk where
  id : String
  query_id : String
  relevance : Int
  source_url : String
  code : String
deriving DecidableEq, Repr

/-- An output query (the dict appended to `queries_raw`); `relevanceScores`
is the insertion-ordered dict as an association list. -/
structure EvalQuery where
  id : String
  query : String
  relevantIds : List String
  relevanceScores : List (String × Int)
  chunkIds : List String
deriving DecidableEq, Repr

/-- The inner `for c in selected` loop: look up the candidate's fetch
result, skip falsy results (`None` or the empty string — `if not code`),
and number the kept chunks `counter+1, counter+2, …` (the per-`qid`
`chunk_counter`). -/
def buildChunks (qi : Nat) (res : String → Option String) :
    List Candidate → Nat → List Chunk
  | [], _ => []
  | c :: rest, counter =>
      match res c.url with
      | none => buildChunks qi res rest counter
      | some code =>
          if code = "" then buildChunks qi res rest counter
          else
            { id := cidStr qi (counter + 1), query_id := qidStr qi,
              relevance := c.relevance, source_url := c.url, code := code } ::
              buildChunks qi res rest (counter + 1)

/-- The `for qi, (query, candidates) in enumerate(good_queries)` assembly
loop, carried out from index `qi`: re-run the sampling, build the resolved
chunks, drop the query when `q_chunks` is empty or fewer than
`MIN_POSITIVES` positives resolved, otherwise emit the query record and
extend the chunk list. -/
def assembleGo (res : String → Option String) :
    List (String × List Candidate) → Nat → List Chunk × List EvalQuery
  | [], _ => ([], [])
  | (query, candidates) :: rest, qi =>
      let selected := sampleCandidates candidates
      let qChunks := buildChunks qi res selected 0
      let restOut := assembleGo res rest (qi + 1)
      if qChunks = [] then restOut
      else
        let relevantIds :=
          (qChunks.filter (fun c => RELEVANCE_THRESHOLD ≤ c.relevance)).map (fun c => c.id)
        if relevantIds.length < MIN_POSITIVES then restOut
        else
          (qChunks ++ restOut.1,
            { id := qidStr qi, query := query, relevantIds := relevantIds,
              relevanceScores := qChunks.map (fun c => (c.id, c.relevance)),
              chunkIds := qChunks.map (fun c => c.id) } :: restOut.2)

/-- `chunks_raw` and `queries_raw` as functions of the fetch-results map
and the selected queries. -/
def assemble (res : String → Option String) (gq : List (String × List Candidate)) :
    List Chunk × List EvalQuery :=
  assembleGo res gq 0

/-! ## The fetch loop -/

/-- `fetch_jobs`: one `(query, url, relevance)` triple per sampled
candidate of each selected query. -/
def fetch_jobs (gq : List (String × List Candidate)) : List (String × String × Int) :=
  gq.flatMap (fun p => (sampleCandidates p.2).map (fun c => (p.1, c.url, c.relevance)))

/-- The URLs fetched over the network: `pool.submit(fetch_code, url)` is
called once per entry of `fetch_jobs` (the `futures` dict is keyed by the
future object, and distinct `submit` calls return distinct futures), so
each entry causes its own `fetch_code` invocation. -/
def networkCalls (gq : List (String × List Candidate)) : List String :=
  (fetch_jobs gq).map (fun j => j.2.1)

/-- The `for fut in as_completed(futures)` collection loop: `order` is the
completion order of the submitted jobs, and `m` is the (deterministic,
mocked) per-URL result of `fetch_code`; each completed future stores its
result under its URL.  Reading a URL through the final map models
`results.get(url)` (`none` both for a missing key and a stored `None`). -/
def runFetches (m : String → Option String) (order : List (String × String × Int)) :
    String → Option String :=
  order.foldl (fun acc j => Function.update acc j.2.1 (m j.2.1)) (fun _ => none)

/-- The whole selection/sampling/assembly pipeline as a function of the
annotation rows, the mocked per-URL fetch result `m`, and the completion
order of the fetch futures (the only non-input-determined part of a run).
`none` propagates a loading failure. -/
def pipelineOut (rows : List Row) (m : String → Option String)
    (order : List (String × String × Int)) : Option (List Chunk × List EvalQuery) :=
  (by_query rows).map (fun bq =>
    let gq := good_queries bq
    assemble (runFetches m order) gq)

/-! ## Helper lemmas -/

theorem neg_filter_eq (cs : List Candidate) :
    negativesOf cs = cs.filter (fun c => !(decide (RELEVANCE_THRESHOLD ≤ c.relevance))) := by
  unfold negativesOf
  apply List.filter_congr
  intro c _
  by_cases h : RELEVANCE_THRESHOLD ≤ c.relevance
  all_goals simp [h]
  all_goals omega

theorem pos_add_neg_length (cs : List Candidate) :
    (positivesOf cs).length + (negativesOf cs).length = cs.length := by
  rw [neg_filter_eq]
  unfold positivesOf
  exact (List.length_eq_length_filter_add
    (fun c : Candidate => decide (RELEVANCE_THRESHOLD ≤ c.relevance))).symm

/-! ## C1: candidate sampling -/

/-- A query with thirteen positives and two negatives: more positives than
`MAX_CANDIDATES = 12`. -/
def c1Feed : List Candidate :=
  [⟨"u00", 3⟩, ⟨"u01", 3⟩, ⟨"u02", 3⟩, ⟨"u03", 3⟩, ⟨"u04", 3⟩, ⟨"u05", 3⟩,
   ⟨"u06", 3⟩, ⟨"u07", 3⟩, ⟨"u08", 3⟩, ⟨"u09", 3⟩, ⟨"u10", 3⟩, ⟨"u11", 3⟩,
   ⟨"u12", 3⟩, ⟨"n01", 0⟩, ⟨"n02", 1⟩]

/-- C1 (counterexample): on a query with 13 positives and 2 negatives the
sampled list has 14 elements — not the claimed
`min (|positives| + max 0 (MAX_CANDIDATES - |positives|)) |candidates| = 13` —
and a negative (`n01`) IS included even though `|positives| > MAX_CANDIDATES`:
the slice `negatives[:MAX_CANDIDATES - len(positives)]` has a negative bound,
which Python interprets as "all but the last `|positives| - MAX_CANDIDATES`
negatives", not as an empty slice. -/
theorem c1_sampling_counterexample :
    positivesCount c1Feed = 13 ∧ c1Feed.length = 15 ∧
    (sampleCandidates c1Feed).length = 14 ∧
    ¬ ((sampleCandidates c1Feed).length =
        min (positivesCount c1Feed + max 0 (MAX_CANDIDATES - positivesCount c1Feed))
          c1Feed.length) ∧
    (⟨"n01", 0⟩ : Candidate) ∈ sampleCandidates c1Feed := by
  decide

/-- The number of negatives the slice keeps, spelling out Python's
negative-bound semantics. -/
def sampleBudget (cs : List Candidate) : Nat :=
  if (positivesOf cs).length ≤ MAX_CANDIDATES
    then MAX_CANDIDATES - (positivesOf cs).length
    else (negativesOf cs).length - ((positivesOf cs).length - MAX_CANDIDATES)

/-- C1 (amended): the sampled output is all positives followed by a prefix
of the negatives, where the prefix length follows Python slice semantics
(`sampleBudget`): `MAX_CANDIDATES - |positives|` when
`|positives| ≤ MAX_CANDIDATES`, but
`|negatives| - (|positives| - MAX_CANDIDATES)` (clamped at 0) when the
positives alone exceed the cap — so in the latter case negatives can still
be included.  All positives are always present, the kept negatives
preserve their original relative order, and the sampled size is
`|positives| + min budget |negatives|`; in particular, when
`|positives| ≤ MAX_CANDIDATES` the size is the claimed
`min MAX_CANDIDATES |candidates|`. -/
theorem c1_sampling_amended (cs : List Candidate) :
    sampleCandidates cs = positivesOf cs ++ (negativesOf cs).take (sampleBudget cs) ∧
    (∀ c ∈ positivesOf cs, c ∈ sampleCandidates cs) ∧
    List.Sublist ((negativesOf cs).take (sampleBudget cs)) (negativesOf cs) ∧
    (sampleCandidates cs).length =
      (positivesOf cs).length + min (sampleBudget cs) (negativesOf cs).length ∧
    ((positivesOf cs).length ≤ MAX_CANDIDATES →
      (sampleCandidates cs).length = min MAX_CANDIDATES cs.length) := by
  have hmain : sampleCandidates cs =
      positivesOf cs ++ (negativesOf cs).take (sampleBudget cs) := by
    unfold sampleCandidates pyTake sampleBudget
    by_cases h : (0 : Int) ≤ (MAX_CANDIDATES : Int) - (positivesOf cs).length
    · have hle : (positivesOf cs).length ≤ MAX_CANDIDATES := by omega
      simp only [h, if_true, hle]
      congr 1
      congr 1
      omega
    · have hgt : ¬ (positivesOf cs).length ≤ MAX_CANDIDATES := by omega
      simp only [h, if_false, hgt]
      congr 1
      congr 1
      omega
  refine ⟨hmain, ?_, List.take_sublist _ _, ?_, ?_⟩
  · intro c hc
    rw [hmain]
    exact List.mem_append_left _ hc
  · rw [hmain]
    simp [List.length_take]
  · intro hle
    rw [hmain]
    have hpn := pos_add_neg_length cs
    have hb : sampleBudget cs = MAX_CANDIDATES - (positivesOf cs).length := by
      simp [sampleBudget, hle]
    simp only [List.length_append, List.length_take, hb]
    omega

/-- Witness for the amended C1 at concrete inputs: on `c1Feed` the first
positive is sampled and the size formula holds; on a small in-budget list
the size is `min MAX_CANDIDATES |candidates|`. -/
theorem c1_sampling_amended_witness :
    (⟨"u00", 3⟩ : Candidate) ∈ sampleCandidates c1Feed ∧
    (sampleCandidates c1Feed).length =
      (positivesOf c1Feed).length + min (sampleBudget c1Feed) (negativesOf c1Feed).length ∧
    (sampleCandidates [⟨"uA", 3⟩, ⟨"uB", 3⟩, ⟨"uC", 0⟩]).length =
      min MAX_CANDIDATES ([⟨"uA", 3⟩, ⟨"uB", 3⟩, (⟨"uC", 0⟩ : Candidate)]).length :=
  ⟨(c1_sampling_amended c1Feed).2.1 ⟨"u00", 3⟩ (by decide),
   (c1_sampling_amended c1Feed).2.2.2.1,
   (c1_sampling_amended [⟨"uA", 3⟩, ⟨"uB", 3⟩, ⟨"uC", 0⟩]).2.2.2.2 (by decide)⟩

/-! ## C3: annotation loading and malformed relevance -/

theorem by_queryAux_isSome (rs : List Row) :
    ∀ acc, (∀ r ∈ rs, (parseRelevance r.Relevance).isSome) →
      (by_queryAux acc rs).isSome := by
  induction rs with
  | nil => intro acc _; simp [by_queryAux]
  | cons r rest ih =>
      intro acc h
      have hr : (parseRelevance r.Relevance).isSome := h r (List.mem_cons_self r rest)
      unfold by_queryAux
      match hp : parseRelevance r.Relevance with
      | none => rw [hp] at hr; simp at hr
      | some rel =>
          exact ih _ (fun r' hr' => h r' (List.mem_cons_of_mem r hr'))

theorem by_queryAux_none (rs : List Row) :
    ∀ acc, (∃ r ∈ rs, parseRelevance r.Relevance = none) →
      by_queryAux acc rs = none := by
  induction rs with
  | nil => intro acc h; simp at h
  | cons r rest ih =>
      intro acc h
      unfold by_queryAux
      match hp : parseRelevance r.Relevance with
      | none => rfl
      | some rel =>
          apply ih
          rcases h with ⟨r', hr', hnone⟩
          rcases List.mem_cons.mp hr' with h1 | h2
          · subst h1; rw [hp] at hnone; exact absurd hnone (by simp)
          · exact ⟨r', h2, hnone⟩

/-- A Python-language row whose relevance field is non-empty but not an
integer literal. -/
def c3BadRow : Row :=
  ⟨"Python", "parse json", "https://github.com/o/r/blob/s/p.py", "abc"⟩

/-- C3 (counterexample): loading DOES fail on a malformed relevance value:
`int("abc")` raises an uncaught `ValueError`, so the whole load aborts
(`none`) instead of defaulting the field to 0 and keeping the row. -/
theorem c3_relevance_counterexample :
    by_query [c3BadRow] = none ∧ parseRelevance "abc" = none := by
  constructor
  · rfl
  · rfl

/-- C3 (amended): only an *empty* relevance field is replaced by 0 (via
`r["Relevance"] or 0`), and such rows are still loaded; a non-empty
relevance that is not an integer literal raises an uncaught `ValueError`,
aborting the whole load.  Loading succeeds exactly when every
Python-language row has an empty or integer relevance field. -/
theorem c3_relevance_amended :
    parseRelevance "" = some 0 ∧
    (∀ rows : List Row,
      (∀ r ∈ rows, r.Language = "Python" →
        r.Relevance = "" ∨ (pyInt? r.Relevance).isSome) →
      (by_query rows).isSome) ∧
    (∀ rows : List Row, ∀ r ∈ rows, r.Language = "Python" → r.Relevance ≠ "" →
      pyInt? r.Relevance = none → by_query rows = none) := by
  refine ⟨rfl, ?_, ?_⟩
  · intro rows h
    apply by_queryAux_isSome
    intro r hr
    have hmem := List.mem_filter.mp hr
    have hlang : r.Language = "Python" := by
      have := hmem.2
      simpa using this
    rcases h r hmem.1 hlang with he | hsome
    · simp [parseRelevance, he]
    · unfold parseRelevance
      by_cases he : r.Relevance = "" <;> simp [he, hsome]
  · intro rows r hr hlang hne hnone
    apply by_queryAux_none
    refine ⟨r, ?_, ?_⟩
    · exact List.mem_filter.mpr ⟨hr, by simp [hlang]⟩
    · simp [parseRelevance, hne, hnone]

/-- Witness for the amended C3 at concrete inputs: a feed with an empty
relevance loads (the row surviving with relevance 0 is visible in
`c3_relevance_counterexample`'s sibling fact), and a feed with `"abc"`
aborts. -/
theorem c3_relevance_amended_witness :
    (by_query [⟨"Python", "q", "u", ""⟩]).isSome ∧
    by_query [⟨"Python", "q", "u", "3"⟩, c3BadRow] = none := by
  constructor
  · exact c3_relevance_amended.2.1 [⟨"Python", "q", "u", ""⟩]
      (fun r hr _ => by
        have : r = ⟨"Python", "q", "u", ""⟩ := by simpa using hr
        subst this
        exact Or.inl rfl)
  · exact c3_relevance_amended.2.2 [⟨"Python", "q", "u", "3"⟩, c3BadRow] c3BadRow
      (by simp [c3BadRow]) rfl (by decide) (by decide)

/-! ## C4: totality of `fetch_code` and the degenerate `#L10-L5` range -/

/-- C4: `fetch_code` always returns `none` or a snippet (every exception
path is collapsed by the `try`/`except Exception` block), and on the
degenerate locator `#L10-L5` (end before start) it deterministically
returns `none` whatever the fetch does: the clamped slice
`lines[9 : min(len(lines), 5)]` is empty, so the snippet is empty and
fails the 30-character minimum (`"".strip()` is falsy-length). -/
theorem c4_fetch_code_total_degenerate :
    (∀ (fetch : String → Option String) (url : String),
      fetch_code fetch url = none ∨ ∃ t, fetch_code fetch url = some t) ∧
    (∀ fetch : String → Option String,
      fetch_code fetch "https://github.com/owner/repo/blob/sha/file.py#L10-L5" = none) := by
  constructor
  · intro fetch url
    cases h : fetch_code fetch url with
    | none => exact Or.inl rfl
    | some t => exact Or.inr ⟨t, rfl⟩
  · intro fetch
    have hp : github_url_to_raw "https://github.com/owner/repo/blob/sha/file.py#L10-L5" =
        some ("https://raw.githubusercontent.com/owner/repo/sha/file.py", 10, 5) := rfl
    simp only [fetch_code, hp]
    cases hf : fetch "https://raw.githubusercontent.com/owner/repo/sha/file.py" with
    | none => rfl
    | some content =>
        have h0 : clampSlice (splitlines content) 10 5 = [] := by
          unfold clampSlice
          have he : min (splitlines content).length 5 - (10 - 1) = 0 := by omega
          simp [he]
        simp only [h0]
        rfl

/-! ## C2: locator de-duplication across queries -/

theorem runFetches_foldl (m : String → Option String)
    (order : List (String × String × Int)) :
    ∀ (acc : String → Option String) (u : String),
      (order.foldl (fun (acc : String → Option String) j =>
          Function.update acc j.2.1 (m j.2.1)) acc) u =
        if u ∈ order.map (fun j => j.2.1) then m u else acc u := by
  induction order with
  | nil => intro acc u; simp
  | cons j rest ih =>
      intro acc u
      simp only [List.foldl_cons, List.map_cons, List.mem_cons]
      rw [ih]
      by_cases hr : u ∈ rest.map (fun j => j.2.1)
      · simp [hr]
      · by_cases hj : u = j.2.1
        · subst hj
          simp [hr, Function.update_apply]
        · simp [hr, hj, Function.update_apply]

/-- Two selected queries sharing the candidate locator `uA`. -/
def c2Rows : List Row :=
  [⟨"Python", "q one", "uA", "3"⟩, ⟨"Python", "q one", "uB", "3"⟩,
   ⟨"Python", "q two", "uA", "3"⟩, ⟨"Python", "q two", "uC", "3"⟩]

/-- The grouped form of `c2Rows`. -/
def c2BQ : List (String × List Candidate) :=
  [("q one", [⟨"uA", 3⟩, ⟨"uB", 3⟩]), ("q two", [⟨"uA", 3⟩, ⟨"uC", 3⟩])]

theorem good_queries_c2BQ : good_queries c2BQ = c2BQ := by
  unfold good_queries
  rw [show qualifying c2BQ = c2BQ by decide]
  rw [List.mergeSort_of_sorted (by decide)]
  decide

/-- C2 (counterexample): locators are NOT de-duplicated before fetching.
The `futures` dict is keyed by the future object returned by each
`pool.submit(fetch_code, url)` call, and one `submit` (hence one
`fetch_code` network fetch) happens per `fetch_jobs` entry — so the
locator `uA`, sampled for both selected queries, is fetched twice in one
run, not at most once. -/
theorem c2_dedup_counterexample :
    by_query c2Rows = some c2BQ ∧
    List.count "uA" (networkCalls (good_queries c2BQ)) = 2 ∧
    ¬ List.count "uA" (networkCalls (good_queries c2BQ)) ≤ 1 := by
  refine ⟨by decide, ?_, ?_⟩
  · rw [good_queries_c2BQ]; decide
  · rw [good_queries_c2BQ]; decide

/-- C2 (amended): each `fetch_jobs` entry triggers its own `fetch_code`
call (one network fetch per *occurrence* of a locator, as
`c2_dedup_counterexample` shows), but the `results` dict is keyed by
locator URL, so after the collection loop every occurrence of a locator
shares one stored result: reading any URL `u` out of the final map yields
the (deterministic) fetch result `m u` when `u` was jobbed at all, and
`none` otherwise — independent of how many times or in which order `u`'s
futures completed. -/
theorem c2_dedup_amended (m : String → Option String)
    (order : List (String × String × Int)) (u : String) :
    runFetches m order u = if u ∈ order.map (fun j => j.2.1) then m u else none :=
  runFetches_foldl m order _ u

/-! ## C9: determinism of selection, sampling and assembly -/

/-- C9: the pipeline output (`chunks_raw`, `queries_raw`) is a pure
function of the annotation rows and the mocked per-URL fetch results: the
completion order of the futures — the only nondeterminism in the run — is
irrelevant, because the `results` map is keyed by URL and each URL's
result is determined by `m`.  (`generatedAt`, produced at serialization
time, is outside the assembled structures modelled here.) -/
theorem c9_determinism (rows : List Row) (m : String → Option String)
    (o₁ o₂ : List (String × String × Int)) (hp : o₁.Perm o₂) :
    pipelineOut rows m o₁ = pipelineOut rows m o₂ := by
  have hres : runFetches m o₁ = runFetches m o₂ := by
    funext u
    rw [runFetches, runFetches, runFetches_foldl, runFetches_foldl]
    have hmem : u ∈ o₁.map (fun j => j.2.1) ↔ u ∈ o₂.map (fun j => j.2.1) :=
      (hp.map (fun j => j.2.1)).mem_iff
    by_cases h : u ∈ o₁.map (fun j => j.2.1)
    · simp [h, hmem.mp h]
    · have h2 : u ∉ o₂.map (fun j => j.2.1) := fun hc => h (hmem.mpr hc)
      simp [h, h2]
  unfold pipelineOut
  rw [hres]

/-- Witness for C9: swapping the completion order of two fetch jobs leaves
the assembled dataset unchanged. -/
theorem c9_determinism_witness :
    pipelineOut c2Rows (fun _ => some "0123456789012345678901234567890123456789")
        [("q one", "uA", 3), ("q one", "uB", 3)] =
      pipelineOut c2Rows (fun _ => some "0123456789012345678901234567890123456789")
        [("q one", "uB", 3), ("q one", "uA", 3)] :=
  c9_determinism c2Rows _ _ _ (by decide)

/-! ## C5: line-range clamping and defaults -/

theorem drop_take_eq_filterMap_range (l : List α) (s : Nat) :
    ∀ len : Nat, (l.drop s).take len = (List.range len).filterMap (fun j => l[s+j]?) := by
  intro len
  induction len with
  | zero => simp
  | succ n ih =>
      rw [List.take_succ, List.range_succ, List.filterMap_append, ih, List.getElem?_drop]
      simp only [List.filterMap]
      cases l[s + n]? <;> rfl

theorem parseFrag_not_hash (c : Char) (rest : List Char) (h : c ≠ '#') :
    parseFrag (c :: rest) = none := by
  cases rest with
  | nil => rfl
  | cons c2 r =>
      simp only [parseFrag]
      rw [if_neg (fun hc : c = '#' ∧ c2 = 'L' => h hc.1)]

theorem splitPathFragAux_noHash :
    ∀ (rest path : List Char), (∀ c ∈ rest, c ≠ '#') →
      splitPathFragAux path rest = (path ++ rest, none) := by
  intro rest
  induction rest with
  | nil => intro path _; simp [splitPathFragAux]
  | cons c r ih =>
      intro path h
      unfold splitPathFragAux
      rw [parseFrag_not_hash c r (h c (List.mem_cons_self c r))]
      rw [ih (path ++ [c]) (fun c' hc' => h c' (List.mem_cons_of_mem c hc'))]
      simp

theorem stripPrefixChars_append :
    ∀ (pre rest : List Char), stripPrefixChars pre (pre ++ rest) = some rest := by
  intro pre
  induction pre with
  | nil => intro rest; rfl
  | cons p ps ih =>
      intro rest
      show stripPrefixChars (p :: ps) ((p :: ps) ++ rest) = some rest
      rw [List.cons_append]
      simp only [stripPrefixChars]
      simpa using ih rest

theorem takeWhile_ne_append (rest : List Char) :
    ∀ seg : List Char, (∀ c ∈ seg, c ≠ '/') →
      (seg ++ '/' :: rest).takeWhile (fun c => decide (c ≠ '/')) = seg := by
  intro seg
  induction seg with
  | nil => intro _; simp [List.takeWhile]
  | cons c cs ih =>
      intro h
      simp only [List.cons_append, List.takeWhile_cons]
      rw [if_pos (by simp [h c (List.mem_cons_self c cs)])]
      rw [ih (fun c' hc' => h c' (List.mem_cons_of_mem c hc'))]

theorem dropWhile_ne_append (rest : List Char) :
    ∀ seg : List Char, (∀ c ∈ seg, c ≠ '/') →
      (seg ++ '/' :: rest).dropWhile (fun c => decide (c ≠ '/')) = '/' :: rest := by
  intro seg
  induction seg with
  | nil => intro _; simp [List.dropWhile]
  | cons c cs ih =>
      intro h
      simp only [List.cons_append, List.dropWhile_cons]
      rw [if_pos (by simp [h c (List.mem_cons_self c cs)])]
      exact ih (fun c' hc' => h c' (List.mem_cons_of_mem c hc'))

theorem splitSeg_append (seg : List Char) (hne : seg ≠ [])
    (hns : ∀ c ∈ seg, c ≠ '/') (rest : List Char) :
    splitSeg (seg ++ '/' :: rest) = some (seg, rest) := by
  unfold splitSeg
  rw [takeWhile_ne_append rest seg hns, dropWhile_ne_append rest seg hns]
  simp [hne]

/-- Parsing a well-formed blob URL with no `#L` fragment: the raw URL with
the default line range `start = 1`, `end = start + 40 = 41`. -/
theorem github_url_to_raw_noFrag (owner repo sha path : String)
    (ho : owner.data ≠ []) (ho2 : ∀ c ∈ owner.data, c ≠ '/')
    (hr : repo.data ≠ []) (hr2 : ∀ c ∈ repo.data, c ≠ '/')
    (hs : sha.data ≠ []) (hs2 : ∀ c ∈ sha.data, c ≠ '/')
    (hp : path.data ≠ []) (hp2 : ∀ c ∈ path.data, c ≠ '#') :
    github_url_to_raw
        ("https://github.com/" ++ owner ++ "/" ++ repo ++ "/blob/" ++ sha ++ "/" ++ path) =
      some ("https://raw.githubusercontent.com/" ++ owner ++ "/" ++ repo ++ "/" ++ sha ++
        "/" ++ path, 1, 41) := by
  obtain ⟨c, rest, hcr⟩ : ∃ c rest, path.data = c :: rest := by
    cases hpd : path.data with
    | nil => exact absurd hpd hp
    | cons c rest => exact ⟨c, rest, rfl⟩
  have hfrag : splitPathFragAux [c] rest = (c :: rest, none) := by
    have := splitPathFragAux_noHash rest [c]
      (fun c' hc' => hp2 c' (by rw [hcr]; exact List.mem_cons_of_mem c hc'))
    simpa using this
  have hdata : ("https://github.com/" ++ owner ++ "/" ++ repo ++ "/blob/" ++ sha ++ "/" ++
      path).data = "https://github.com/".data ++
        (owner.data ++ '/' :: (repo.data ++ '/' ::
          ("blob/".data ++ (sha.data ++ '/' :: path.data)))) := by
    simp only [String.data_append, List.append_assoc]
    rfl
  simp only [github_url_to_raw, hdata, stripPrefixChars_append,
    splitSeg_append owner.data ho ho2, splitSeg_append repo.data hr hr2,
    splitSeg_append sha.data hs hs2, hcr, splitPathFrag, hfrag]
  refine congrArg some (Prod.ext ?_ rfl)
  apply String.ext
  show "https://raw.githubusercontent.com/".data ++ owner.data ++ '/' ::
      repo.data ++ '/' :: sha.data ++ '/' :: (c :: rest) =
    ("https://raw.githubusercontent.com/" ++ owner ++ "/" ++ repo ++ "/" ++ sha ++
      "/" ++ path).data
  simp only [String.data_append, List.append_assoc, hcr]
  rfl

/-- C5: (i) for every fetched file and requested range the clamped slice
is exactly the lines whose 1-based number lies in
`[max 1 start, min lineCount end]` (the requested range clamped to
`[1, lineCount]`), and every line number in that range is actually
present; `fetch_code`'s snippet is by definition the `"\n"`-join of this
slice (then stripped/capped).  (ii) A locator with no `#L` fragment
parses with the defaults `start = 1`, `end = start + 40 = 41`.  (iii) With
those defaults the slice is the first `min lineCount 41` lines — lines
1..41, or the whole file if shorter. -/
theorem c5_line_clamping :
    (∀ (lines : List String) (a b : Nat),
      clampSlice lines a b =
        (List.range' (max 1 a) (min lines.length b + 1 - max 1 a)).filterMap
          (fun i => lines[i-1]?) ∧
      ∀ i ∈ List.range' (max 1 a) (min lines.length b + 1 - max 1 a),
        (lines[i-1]?).isSome) ∧
    (∀ owner repo sha path : String,
      owner.data ≠ [] → (∀ c ∈ owner.data, c ≠ '/') →
      repo.data ≠ [] → (∀ c ∈ repo.data, c ≠ '/') →
      sha.data ≠ [] → (∀ c ∈ sha.data, c ≠ '/') →
      path.data ≠ [] → (∀ c ∈ path.data, c ≠ '#') →
      github_url_to_raw
          ("https://github.com/" ++ owner ++ "/" ++ repo ++ "/blob/" ++ sha ++ "/" ++ path) =
        some ("https://raw.githubusercontent.com/" ++ owner ++ "/" ++ repo ++ "/" ++ sha ++
          "/" ++ path, 1, 41)) ∧
    (∀ lines : List String, clampSlice lines 1 41 = lines.take (min lines.length 41)) := by
  refine ⟨?_, github_url_to_raw_noFrag, ?_⟩
  · intro lines a b
    constructor
    · unfold clampSlice
      rw [drop_take_eq_filterMap_range]
      rw [List.range'_eq_map_range, List.filterMap_map]
      have hk : min lines.length b + 1 - max 1 a = min lines.length b - (a - 1) := by omega
      rw [hk]
      congr 1
      funext j
      simp only [Function.comp]
      congr 1
      omega
    · intro i hi
      have hmem := List.mem_range'_1.mp hi
      have hlt : i - 1 < lines.length := by omega
      rw [List.getElem?_eq_getElem hlt]
      rfl
  · intro lines
    unfold clampSlice
    simp

/-- Witness for C5 at concrete inputs: a fragment-free URL parses to the
default range `(1, 41)`, and a concrete slice request matches the clamped
range characterization. -/
theorem c5_line_clamping_witness :
    github_url_to_raw "https://github.com/o/r/blob/s/p.py" =
      some ("https://raw.githubusercontent.com/o/r/s/p.py", 1, 41) ∧
    clampSlice ["a", "b", "c"] 2 5 =
      (List.range' 2 (min (["a", "b", "c"] : List String).length 5 + 1 - 2)).filterMap
        (fun i => (["a", "b", "c"] : List String)[i-1]?) ∧
    ((["a", "b", "c"] : List String)[2-1]?).isSome := by
  refine ⟨?_, ?_, ?_⟩
  · have h := c5_line_clamping.2.1 "o" "r" "s" "p.py" (by decide) (by decide) (by decide)
      (by decide) (by decide) (by decide) (by decide) (by decide)
    have hurl : ("https://github.com/" ++ "o" ++ "/" ++ "r" ++ "/blob/" ++ "s" ++ "/" ++
        "p.py") = "https://github.com/o/r/blob/s/p.py" := rfl
    have hraw : ("https://raw.githubusercontent.com/" ++ "o" ++ "/" ++ "r" ++ "/" ++ "s" ++
        "/" ++ "p.py") = "https://raw.githubusercontent.com/o/r/s/p.py" := rfl
    rw [hurl, hraw] at h
    exact h
  · exact (c5_line_clamping.1 ["a", "b", "c"] 2 5).1
  · exact (c5_line_clamping.1 ["a", "b", "c"] 2 5).2 2 (by decide)

/-! ## C6: query selection -/

theorem selLE_trans : ∀ a b c : String × List Candidate, selLE a b → selLE b c → selLE a c := by
  intro a b c
  simp only [selLE, decide_eq_true_eq]
  omega

theorem selLE_total : ∀ a b : String × List Candidate, selLE a b || selLE b a := by
  intro a b
  simp only [selLE, Bool.or_eq_true, decide_eq_true_eq]
  omega

theorem pair_sublist_take {α : Type} {x y : α} :
    ∀ (l : List α) (k : Nat), l.Nodup → List.Sublist [x, y] l → y ∈ l.take k →
      List.Sublist [x, y] (l.take k) := by
  intro l
  induction l with
  | nil =>
      intro k _ hs _
      simp at hs
  | cons a t ih =>
      intro k hnd hs hy
      cases k with
      | zero => simp at hy
      | succ k' =>
          rw [List.take_succ_cons] at hy ⊢
          have hand : a ∉ t ∧ t.Nodup := List.nodup_cons.mp hnd
          rcases List.sublist_cons_iff.mp hs with hs' | ⟨r, hr, hs'⟩
          · -- `[x, y] <+ t`
            rcases List.mem_cons.mp hy with hya | hyt
            · exact absurd (hya ▸ hs'.subset (by simp)) hand.1
            · exact (ih k' hand.2 hs' hyt).cons a
          · -- `x = a` and `[y] <+ t`
            obtain ⟨hx, hyr⟩ := List.cons_eq_cons.mp hr
            subst hx
            rcases List.mem_cons.mp hy with hya | hyt
            · have hyt2 : y ∈ t := (hyr ▸ hs' : List.Sublist [y] t).subset (by simp)
              exact absurd (hya ▸ hyt2) hand.1
            · exact List.Sublist.cons₂ x (List.singleton_sublist.mpr hyt)

/-- C6: `good_queries` selects exactly the (at most) `TARGET_QUERIES`
qualifying queries (positive count ≥ `MIN_POSITIVES`) of highest positive
count: every selected entry qualifies, the selected length is
`min TARGET_QUERIES |qualifying|`, every unselected qualifying query has a
positive count no larger than any selected one, and ties (and, more
generally, any correctly-ordered pair) keep their original encounter
order — the sort is stable.  Determinism/purity is by construction:
`good_queries` is a function of the loaded mapping alone. -/
theorem c6_query_selection (byQuery : List (String × List Candidate))
    (hnd : byQuery.Nodup) :
    (∀ p ∈ good_queries byQuery, p ∈ qualifying byQuery) ∧
    (good_queries byQuery).length = min TARGET_QUERIES (qualifying byQuery).length ∧
    (∀ p ∈ good_queries byQuery, ∀ q ∈ qualifying byQuery, q ∉ good_queries byQuery →
      positivesCount q.2 ≤ positivesCount p.2) ∧
    (∀ x y : String × List Candidate, positivesCount y.2 ≤ positivesCount x.2 →
      List.Sublist [x, y] (qualifying byQuery) → y ∈ good_queries byQuery →
      List.Sublist [x, y] (good_queries byQuery)) := by
  have hqnd : (qualifying byQuery).Nodup := List.Nodup.filter _ hnd
  have hSnd : ((qualifying byQuery).mergeSort selLE).Nodup :=
    (List.mergeSort_perm (qualifying byQuery) selLE).nodup_iff.mpr hqnd
  refine ⟨?_, ?_, ?_, ?_⟩
  · intro p hp
    have : p ∈ (qualifying byQuery).mergeSort selLE := List.take_subset _ _ hp
    exact (List.mem_mergeSort).mp this
  · rw [good_queries, List.length_take, List.length_mergeSort]
  · intro p hp q hq hqn
    have hqS : q ∈ (qualifying byQuery).mergeSort selLE := List.mem_mergeSort.mpr hq
    have hpw : ((qualifying byQuery).mergeSort selLE).Pairwise (fun a b => selLE a b) :=
      List.sorted_mergeSort selLE_trans selLE_total (qualifying byQuery)
    rw [← List.take_append_drop TARGET_QUERIES ((qualifying byQuery).mergeSort selLE)]
      at hpw hqS
    rcases List.mem_append.mp hqS with hq1 | hq2
    · exact absurd hq1 hqn
    · have := (List.pairwise_append.mp hpw).2.2 p hp q hq2
      simpa [selLE] using this
  · intro x y hxy hsub hy
    have hS : List.Sublist [x, y] ((qualifying byQuery).mergeSort selLE) :=
      List.sublist_mergeSort selLE_trans selLE_total
        (List.pairwise_pair.mpr (by simpa [selLE] using hxy)) hsub
    exact pair_sublist_take _ TARGET_QUERIES hSnd hS hy

/-- Witness for C6 on the concrete grouped feed `c2BQ` (both queries
qualify with two positives each and are both selected). -/
theorem c6_query_selection_witness :
    (good_queries c2BQ).length = min TARGET_QUERIES (qualifying c2BQ).length ∧
    ("q one", [(⟨"uA", 3⟩ : Candidate), ⟨"uB", 3⟩]) ∈ qualifying c2BQ := by
  constructor
  · exact (c6_query_selection c2BQ (by decide)).2.1
  · refine (c6_query_selection c2BQ (by decide)).1 _ ?_
    rw [good_queries_c2BQ]
    decide

/-! ## Identifier arithmetic: decimal strings round-trip, so ids are
injective in the generating indices -/

theorem digitsVal_append (xs : List Char) (c : Char) :
    digitsVal (xs ++ [c]) = 10 * digitsVal xs + (c.toNat - 48) := by
  unfold digitsVal
  rw [List.foldl_append]
  rfl

theorem digit_char_toNat (d : Nat) (h : d < 10) : (Char.ofNat (48 + d)).toNat = 48 + d := by
  interval_cases d <;> rfl

theorem digitsVal_natDigitsFuel : ∀ (f n : Nat), n < f → digitsVal (natDigitsFuel f n) = n := by
  intro f
  induction f with
  | zero => intro n h; omega
  | succ f ih =>
      intro n h
      unfold natDigitsFuel
      by_cases h10 : n < 10
      · rw [if_pos h10]
        show digitsVal [Char.ofNat (48 + n)] = n
        unfold digitsVal
        simp only [List.foldl_cons, List.foldl_nil]
        rw [digit_char_toNat n h10]
        omega
      · rw [if_neg h10]
        rw [digitsVal_append]
        rw [ih (n / 10) (by omega)]
        rw [digit_char_toNat (n % 10) (by omega)]
        omega

theorem natDigits_val (n : Nat) : digitsVal (natDigits n) = n :=
  digitsVal_natDigitsFuel (n + 1) n (Nat.lt_succ_self n)

theorem natDigitsFuel_digits : ∀ (f n : Nat), n < f →
    ∀ c ∈ natDigitsFuel f n, 48 ≤ c.toNat ∧ c.toNat ≤ 57 := by
  intro f
  induction f with
  | zero => intro n h; omega
  | succ f ih =>
      intro n h c hc
      unfold natDigitsFuel at hc
      by_cases h10 : n < 10
      · rw [if_pos h10] at hc
        have hce : c = Char.ofNat (48 + n) := by simpa using hc
        rw [hce, digit_char_toNat n h10]
        omega
      · rw [if_neg h10] at hc
        rcases List.mem_append.mp hc with h1 | h2
        · exact ih (n / 10) (by omega) c h1
        · have : c = Char.ofNat (48 + n % 10) := by simpa using h2
          rw [this]
          rw [digit_char_toNat (n % 10) (by omega)]
          omega

theorem natDigits_digits (n : Nat) : ∀ c ∈ natDigits n, 48 ≤ c.toNat ∧ c.toNat ≤ 57 :=
  natDigitsFuel_digits (n + 1) n (Nat.lt_succ_self n)

theorem pad2_val (n : Nat) : digitsVal (pad2 n) = n := by
  unfold pad2
  by_cases h : n < 10
  · rw [if_pos h]
    show List.foldl (fun a c => 10 * a + (c.toNat - 48)) 0 ('0' :: natDigits n) = n
    rw [List.foldl_cons]
    rw [show (10 * 0 + (('0' : Char).toNat - 48)) = 0 from rfl]
    exact natDigits_val n
  · rw [if_neg h]
    exact natDigits_val n

theorem pad2_inj {m n : Nat} (h : pad2 m = pad2 n) : m = n := by
  have h2 := congrArg digitsVal h
  rwa [pad2_val, pad2_val] at h2

theorem pad2_digits (n : Nat) : ∀ c ∈ pad2 n, 48 ≤ c.toNat ∧ c.toNat ≤ 57 := by
  intro c hc
  unfold pad2 at hc
  by_cases h : n < 10
  · rw [if_pos h] at hc
    rcases List.mem_cons.mp hc with h0 | h1
    · rw [h0]; exact ⟨by decide, by decide⟩
    · exact natDigits_digits n c h1
  · rw [if_neg h] at hc
    exact natDigits_digits n c hc

theorem append_underscore_inj :
    ∀ (xs ys zs ws : List Char),
      (∀ c ∈ xs, 48 ≤ c.toNat ∧ c.toNat ≤ 57) →
      (∀ c ∈ ys, 48 ≤ c.toNat ∧ c.toNat ≤ 57) →
      xs ++ '_' :: zs = ys ++ '_' :: ws → xs = ys ∧ zs = ws := by
  intro xs
  induction xs with
  | nil =>
      intro ys zs ws _ hy h
      cases ys with
      | nil => simpa using h
      | cons y ys' =>
          exfalso
          have hy2 : y = '_' := (List.cons_eq_cons.mp h).1.symm
          have hy' := hy y (List.mem_cons_self y ys')
          rw [hy2] at hy'
          have : ('_' : Char).toNat = 95 := rfl
          omega
  | cons x xs' ih =>
      intro ys zs ws hx hy h
      cases ys with
      | nil =>
          exfalso
          have hx2 : x = '_' := (List.cons_eq_cons.mp h).1
          have hx' := hx x (List.mem_cons_self x xs')
          rw [hx2] at hx'
          have : ('_' : Char).toNat = 95 := rfl
          omega
      | cons y ys' =>
          obtain ⟨hxy, h'⟩ := List.cons_eq_cons.mp h
          obtain ⟨h1, h2⟩ := ih ys' zs ws
            (fun c hc => hx c (List.mem_cons_of_mem x hc))
            (fun c hc => hy c (List.mem_cons_of_mem y hc)) h'
          exact ⟨by rw [hxy, h1], h2⟩

theorem qidStr_inj {i j : Nat} (h : qidStr i = qidStr j) : i = j := by
  have hd : 'q' :: '_' :: pad2 i = 'q' :: '_' :: pad2 j := congrArg String.data h
  simp only [List.cons.injEq, true_and] at hd
  exact pad2_inj hd

theorem cidStr_inj {i k j l : Nat} (h : cidStr i k = cidStr j l) : i = j ∧ k = l := by
  have hd : 'q' :: '_' :: (pad2 i ++ '_' :: 'c' :: pad2 k) =
      'q' :: '_' :: (pad2 j ++ '_' :: 'c' :: pad2 l) := congrArg String.data h
  simp only [List.cons.injEq, true_and] at hd
  obtain ⟨h1, h2⟩ := append_underscore_inj _ _ _ _ (pad2_digits i) (pad2_digits j) hd
  refine ⟨pad2_inj h1, ?_⟩
  exact pad2_inj (List.cons_eq_cons.mp h2).2

/-! ## Structure of `buildChunks` and `assembleGo` -/

/-- The `if not code: continue` test, as a predicate on candidates:
a candidate is kept iff its fetch result is truthy. -/
def kept (res : String → Option String) (c : Candidate) : Bool :=
  match res c.url with
  | none => false
  | some code => code ≠ ""

theorem buildChunks_ids (qi : Nat) (res : String → Option String) :
    ∀ (sel : List Candidate) (counter : Nat),
      (buildChunks qi res sel counter).map (fun c => c.id) =
        (List.range' (counter + 1) ((sel.filter (kept res)).length)).map (cidStr qi) := by
  intro sel
  induction sel with
  | nil => intro counter; rfl
  | cons c rest ih =>
      intro counter
      cases hres : res c.url with
      | none =>
          have hk : kept res c = false := by simp [kept, hres]
          simp only [buildChunks, hres, List.filter_cons, hk, Bool.false_eq_true, if_false]
          exact ih counter
      | some code =>
          by_cases hc : code = ""
          · have hk : kept res c = false := by simp [kept, hres, hc]
            simp only [buildChunks, hres, if_pos hc, List.filter_cons, hk,
              Bool.false_eq_true, if_false]
            exact ih counter
          · have hk : kept res c = true := by simp [kept, hres, hc]
            simp only [buildChunks, hres, if_neg hc, List.map_cons, List.filter_cons, hk,
              if_true, List.length_cons, List.range'_succ]
            rw [ih (counter + 1)]

theorem buildChunks_query_id (qi : Nat) (res : String → Option String) :
    ∀ (sel : List Candidate) (counter : Nat),
      ∀ c' ∈ buildChunks qi res sel counter, c'.query_id = qidStr qi := by
  intro sel
  induction sel with
  | nil => intro counter c' hc'; simp [buildChunks] at hc'
  | cons c rest ih =>
      intro counter c' hc'
      cases hres : res c.url with
      | none =>
          simp only [buildChunks, hres] at hc'
          exact ih counter c' hc'
      | some code =>
          by_cases hc : code = ""
          · simp only [buildChunks, hres, if_pos hc] at hc'
            exact ih counter c' hc'
          · simp only [buildChunks, hres, if_neg hc] at hc'
            rcases List.mem_cons.mp hc' with h0 | h1
            · rw [h0]
            · exact ih (counter + 1) c' h1

/-- Membership shape of `buildChunks` output ids. -/
theorem buildChunks_id_shape (qi : Nat) (res : String → Option String)
    (sel : List Candidate) (c' : Chunk)
    (hc' : c' ∈ buildChunks qi res sel 0) : ∃ k, 1 ≤ k ∧ c'.id = cidStr qi k := by
  have hmem : c'.id ∈ (buildChunks qi res sel 0).map (fun c => c.id) :=
    List.mem_map_of_mem _ hc'
  rw [buildChunks_ids qi res sel 0] at hmem
  rcases List.mem_map.mp hmem with ⟨k, hk, hid⟩
  have := List.mem_range'_1.mp hk
  exact ⟨k, by omega, hid.symm⟩

theorem buildChunks_ids_nodup (qi : Nat) (res : String → Option String)
    (sel : List Candidate) :
    ((buildChunks qi res sel 0).map (fun c => c.id)).Nodup := by
  rw [buildChunks_ids qi res sel 0]
  apply List.Nodup.map
  · intro k l h
    exact (cidStr_inj h).2
  · exact List.nodup_range' _ _

/-- The drop branches of the assembly loop: an empty `q_chunks` or too few
resolved positives skip the query entirely. -/
theorem assembleGo_cons_drop (res : String → Option String) (query : String)
    (cands : List Candidate) (rest : List (String × List Candidate)) (qi : Nat)
    (h : buildChunks qi res (sampleCandidates cands) 0 = [] ∨
      ((buildChunks qi res (sampleCandidates cands) 0).filter
        (fun c => RELEVANCE_THRESHOLD ≤ c.relevance)).length < MIN_POSITIVES) :
    assembleGo res ((query, cands) :: rest) qi = assembleGo res rest (qi + 1) := by
  simp only [assembleGo]
  rcases h with h | h
  · rw [if_pos h]
  · by_cases h0 : buildChunks qi res (sampleCandidates cands) 0 = []
    · rw [if_pos h0]
    · rw [if_neg h0, if_pos (by rw [List.length_map]; exact h)]

/-- The keep branch of the assembly loop. -/
theorem assembleGo_cons_keep (res : String → Option String) (query : String)
    (cands : List Candidate) (rest : List (String × List Candidate)) (qi : Nat)
    (h1 : buildChunks qi res (sampleCandidates cands) 0 ≠ [])
    (h2 : ¬ ((buildChunks qi res (sampleCandidates cands) 0).filter
      (fun c => RELEVANCE_THRESHOLD ≤ c.relevance)).length < MIN_POSITIVES) :
    assembleGo res ((query, cands) :: rest) qi =
      (buildChunks qi res (sampleCandidates cands) 0 ++ (assembleGo res rest (qi + 1)).1,
        { id := qidStr qi, query := query,
          relevantIds := ((buildChunks qi res (sampleCandidates cands) 0).filter
            (fun c => RELEVANCE_THRESHOLD ≤ c.relevance)).map (fun c => c.id),
          relevanceScores := (buildChunks qi res (sampleCandidates cands) 0).map
            (fun c => (c.id, c.relevance)),
          chunkIds := (buildChunks qi res (sampleCandidates cands) 0).map (fun c => c.id) }
          :: (assembleGo res rest (qi + 1)).2) := by
  simp only [assembleGo]
  rw [if_neg h1, if_neg (by rw [List.length_map]; exact h2)]

/-- Full structural invariant of the assembly loop, by induction on the
remaining selected queries, generalized over the starting index `qi`:
(1) every emitted query comes from a position `p` of the input, carries id
`qidStr (qi+p)` and exactly the chunk/relevant/score lists rebuilt from
its resolved chunks, with at least `MIN_POSITIVES` resolved positives;
(2) every emitted chunk belongs to an emitted query (matching `query_id`,
id listed in that query's `chunkIds`); (3) chunk ids are pairwise
distinct; (4) query ids are pairwise distinct; (5) every chunk id has the
shape `cidStr j k` (`j ≥ qi`, `k ≥ 1`) with `query_id = qidStr j`;
(6) every query id has the shape `qidStr j`, `j ≥ qi`; (7) every id listed
in a query's `chunkIds` is the id of an emitted chunk; (8) a position
whose query fails the resolution guard contributes no query and no
chunks. -/
theorem assembleGo_spec (res : String → Option String) :
    ∀ (gq : List (String × List Candidate)) (qi : Nat),
      (∀ q ∈ (assembleGo res gq qi).2, ∃ p pair, gq[p]? = some pair ∧
        q.id = qidStr (qi + p) ∧ q.query = pair.1 ∧
        q.chunkIds = (buildChunks (qi + p) res (sampleCandidates pair.2) 0).map
          (fun c => c.id) ∧
        q.relevantIds = ((buildChunks (qi + p) res (sampleCandidates pair.2) 0).filter
          (fun c => RELEVANCE_THRESHOLD ≤ c.relevance)).map (fun c => c.id) ∧
        q.relevanceScores = (buildChunks (qi + p) res (sampleCandidates pair.2) 0).map
          (fun c => (c.id, c.relevance)) ∧
        MIN_POSITIVES ≤ q.relevantIds.length) ∧
      (∀ c ∈ (assembleGo res gq qi).1, ∃ q, q ∈ (assembleGo res gq qi).2 ∧
        c.query_id = q.id ∧ c.id ∈ q.chunkIds) ∧
      ((assembleGo res gq qi).1.map (fun c => c.id)).Nodup ∧
      ((assembleGo res gq qi).2.map (fun q => q.id)).Nodup ∧
      (∀ c ∈ (assembleGo res gq qi).1, ∃ j k, qi ≤ j ∧ 1 ≤ k ∧ c.id = cidStr j k ∧
        c.query_id = qidStr j) ∧
      (∀ q ∈ (assembleGo res gq qi).2, ∃ j, qi ≤ j ∧ q.id = qidStr j) ∧
      (∀ q ∈ (assembleGo res gq qi).2, ∀ i ∈ q.chunkIds,
        i ∈ (assembleGo res gq qi).1.map (fun c => c.id)) ∧
      (∀ p pair, gq[p]? = some pair →
        (buildChunks (qi + p) res (sampleCandidates pair.2) 0 = [] ∨
          ((buildChunks (qi + p) res (sampleCandidates pair.2) 0).filter
            (fun c => RELEVANCE_THRESHOLD ≤ c.relevance)).length < MIN_POSITIVES) →
        qidStr (qi + p) ∉ (assembleGo res gq qi).2.map (fun q => q.id) ∧
        ∀ c ∈ (assembleGo res gq qi).1, c.query_id ≠ qidStr (qi + p)) := by
  intro gq
  induction gq with
  | nil =>
      intro qi
      refine ⟨?_, ?_, ?_, ?_, ?_, ?_, ?_, ?_⟩ <;> simp [assembleGo]
  | cons hd rest ih =>
      obtain ⟨query, cands⟩ := hd
      intro qi
      obtain ⟨ih1, ih2, ih3, ih4, ih5, ih6, ih7, ih8⟩ := ih (qi + 1)
      have hshift : ∀ p : Nat, (((query, cands) :: rest) : List (String × List Candidate))[p + 1]? = rest[p]? :=
        fun p => List.getElem?_cons_succ
      have harith : ∀ p : Nat, qi + 1 + p = qi + (p + 1) := fun p => by omega
      by_cases hdrop : (buildChunks qi res (sampleCandidates cands) 0 = [] ∨
          ((buildChunks qi res (sampleCandidates cands) 0).filter
            (fun c => RELEVANCE_THRESHOLD ≤ c.relevance)).length < MIN_POSITIVES)
      · -- the query at position qi is dropped: the output is the tail's output
        rw [assembleGo_cons_drop res query cands rest qi hdrop]
        refine ⟨?_, ih2, ih3, ih4, ?_, ?_, ih7, ?_⟩
        · intro q hq
          obtain ⟨p, pair, hget, hid, hquery, hchunk, hrel, hscore, hmin⟩ := ih1 q hq
          refine ⟨p + 1, pair, ?_, ?_, hquery, ?_, ?_, ?_, hmin⟩
          · rw [hshift p]; exact hget
          · rw [← harith p]; exact hid
          · rw [← harith p]; exact hchunk
          · rw [← harith p]; exact hrel
          · rw [← harith p]; exact hscore
        · intro c hc
          obtain ⟨j, k, hj, hk, hcid, hcqid⟩ := ih5 c hc
          exact ⟨j, k, by omega, hk, hcid, hcqid⟩
        · intro q hq
          obtain ⟨j, hj, hid⟩ := ih6 q hq
          exact ⟨j, by omega, hid⟩
        · intro p pair hget hcond
          cases p with
          | zero =>
              constructor
              · intro hmem
                rcases List.mem_map.mp hmem with ⟨q, hq, hqid⟩
                obtain ⟨j, hj, hid⟩ := ih6 q hq
                have : j = qi + 0 := qidStr_inj (hid.symm.trans hqid)
                omega
              · intro c hc hceq
                obtain ⟨j, k, hj, hk, hcid, hcqid⟩ := ih5 c hc
                have : j = qi + 0 := qidStr_inj (hcqid.symm.trans hceq)
                omega
          | succ p' =>
              rw [hshift p'] at hget
              have h8 := ih8 p' pair hget (by rw [harith p']; exact hcond)
              rw [← harith p']
              exact h8
      · -- the query at position qi is kept
        rw [not_or] at hdrop
        obtain ⟨h1, h2⟩ := hdrop
        rw [assembleGo_cons_keep res query cands rest qi h1 h2]
        dsimp only
        refine ⟨?_, ?_, ?_, ?_, ?_, ?_, ?_, ?_⟩
        · intro q hq
          rcases List.mem_cons.mp hq with hq0 | hqr
          · subst hq0
            refine ⟨0, (query, cands), by simp, ?_, rfl, ?_, ?_, ?_, ?_⟩
            · rw [Nat.add_zero]
            · rw [Nat.add_zero]
            · rw [Nat.add_zero]
            · rw [Nat.add_zero]
            · dsimp only
              rw [List.length_map]
              omega
          · obtain ⟨p, pair, hget, hid, hquery, hchunk, hrel, hscore, hmin⟩ := ih1 q hqr
            refine ⟨p + 1, pair, ?_, ?_, hquery, ?_, ?_, ?_, hmin⟩
            · rw [hshift p]; exact hget
            · rw [← harith p]; exact hid
            · rw [← harith p]; exact hchunk
            · rw [← harith p]; exact hrel
            · rw [← harith p]; exact hscore
        · intro c hc
          rcases List.mem_append.mp hc with hcq | hcr
          · refine ⟨_, List.mem_cons_self _ _, ?_, ?_⟩
            · exact buildChunks_query_id qi res (sampleCandidates cands) 0 c hcq
            · exact List.mem_map_of_mem _ hcq
          · obtain ⟨q, hq, hqid, hcid⟩ := ih2 c hcr
            exact ⟨q, List.mem_cons_of_mem _ hq, hqid, hcid⟩
        · rw [List.map_append]
          apply List.Nodup.append
          · exact buildChunks_ids_nodup qi res (sampleCandidates cands)
          · exact ih3
          · intro x hx hx'
            rw [buildChunks_ids qi res (sampleCandidates cands) 0] at hx
            rcases List.mem_map.mp hx with ⟨k, hk, hxid⟩
            rcases List.mem_map.mp hx' with ⟨c, hc, hcid⟩
            obtain ⟨j, k', hj, hk', hcid', _⟩ := ih5 c hc
            have heq : cidStr qi k = cidStr j k' := hxid.trans (hcid.symm.trans hcid')
            have := cidStr_inj heq
            omega
        · rw [List.map_cons]
          rw [List.nodup_cons]
          constructor
          · intro hmem
            rcases List.mem_map.mp hmem with ⟨q, hq, hqid⟩
            obtain ⟨j, hj, hid⟩ := ih6 q hq
            have : j = qi := qidStr_inj (hid.symm.trans hqid)
            omega
          · exact ih4
        · intro c hc
          rcases List.mem_append.mp hc with hcq | hcr
          · obtain ⟨k, hk, hcid⟩ := buildChunks_id_shape qi res (sampleCandidates cands) c hcq
            exact ⟨qi, k, Nat.le_refl qi, hk, hcid,
              buildChunks_query_id qi res (sampleCandidates cands) 0 c hcq⟩
          · obtain ⟨j, k, hj, hk, hcid, hcqid⟩ := ih5 c hcr
            exact ⟨j, k, by omega, hk, hcid, hcqid⟩
        · intro q hq
          rcases List.mem_cons.mp hq with hq0 | hqr
          · subst hq0
            exact ⟨qi, Nat.le_refl qi, rfl⟩
          · obtain ⟨j, hj, hid⟩ := ih6 q hqr
            exact ⟨j, by omega, hid⟩
        · intro q hq i hi
          rw [List.map_append]
          rcases List.mem_cons.mp hq with hq0 | hqr
          · subst hq0
            exact List.mem_append_left _ hi
          · exact List.mem_append_right _ (ih7 q hqr i hi)
        · intro p pair hget hcond
          cases p with
          | zero =>
              exfalso
              have hpair : pair = (query, cands) := by
                have hg0 : (((query, cands) :: rest) : List (String × List Candidate))[0]? =
                    some (query, cands) := by simp
                rw [hg0] at hget
                exact (Option.some.inj hget).symm
              subst hpair
              rw [Nat.add_zero] at hcond
              rcases hcond with hc | hc
              · exact h1 hc
              · exact h2 hc
          | succ p' =>
              rw [hshift p'] at hget
              have h8 := ih8 p' pair hget (by rw [harith p']; exact hcond)
              constructor
              · rw [List.map_cons]
                intro hmem
                rcases List.mem_cons.mp hmem with hm0 | hmr
                · have : qi = qi + (p' + 1) := qidStr_inj hm0.symm
                  omega
                · rw [← harith p'] at hmr
                  exact h8.1 hmr
              · intro c hc
                rcases List.mem_append.mp hc with hcq | hcr
                · have := buildChunks_query_id qi res (sampleCandidates cands) 0 c hcq
                  rw [this]
                  intro heq
                  have : qi = qi + (p' + 1) := qidStr_inj heq
                  omega
                · rw [← harith p']
                  exact h8.2 c hcr

/-! ## C7, C8, C10: invariants of the assembled dataset -/

/-- C7: every emitted `EvalQuery` satisfies `relevantIds ⊆ chunkIds` and
`|relevantIds| ≥ MIN_POSITIVES`; and a selected query (position `p` of
`good_queries`) whose successfully-resolved positive count falls below
`MIN_POSITIVES` is dropped entirely: its query id appears nowhere and no
chunk in the output carries it as `query_id`. -/
theorem c7_post_resolution_invariant (res : String → Option String)
    (gq : List (String × List Candidate)) :
    (∀ q ∈ (assemble res gq).2,
      (∀ i ∈ q.relevantIds, i ∈ q.chunkIds) ∧ MIN_POSITIVES ≤ q.relevantIds.length) ∧
    (∀ p pair, gq[p]? = some pair →
      ((buildChunks p res (sampleCandidates pair.2) 0).filter
        (fun c => RELEVANCE_THRESHOLD ≤ c.relevance)).length < MIN_POSITIVES →
      qidStr p ∉ (assemble res gq).2.map (fun q => q.id) ∧
      ∀ c ∈ (assemble res gq).1, c.query_id ≠ qidStr p) := by
  obtain ⟨s1, s2, s3, s4, s5, s6, s7, s8⟩ := assembleGo_spec res gq 0
  constructor
  · intro q hq
    obtain ⟨p, pair, hget, hid, hquery, hchunk, hrel, hscore, hmin⟩ := s1 q hq
    refine ⟨?_, hmin⟩
    intro i hi
    rw [hrel] at hi
    rw [hchunk]
    rcases List.mem_map.mp hi with ⟨c, hc, hcid⟩
    exact List.mem_map.mpr ⟨c, List.mem_of_mem_filter hc, hcid⟩
  · intro p pair hget hcnt
    have h8 := s8 p pair hget (Or.inr (by rw [Nat.zero_add]; exact hcnt))
    rw [Nat.zero_add] at h8
    exact h8

/-- Scenario feed: one selected query with two positives and one negative
(spec scenarios A/B). -/
def scnGQ : List (String × List Candidate) :=
  [("parse json", [⟨"uA", 3⟩, ⟨"uB", 3⟩, ⟨"uC", 1⟩])]

/-- All fetches succeed with a fixed snippet. -/
def resAllOk : String → Option String := fun _ => some "code"

/-- The fetch of the second positive fails. -/
def resFailB : String → Option String :=
  fun u => if u = "uB" then none else some "code"

/-- The query record assembled from `scnGQ` under `resAllOk`. -/
def scnQuery : EvalQuery :=
  { id := "q_00", query := "parse json",
    relevantIds := ["q_00_c01", "q_00_c02"],
    relevanceScores := [("q_00_c01", 3), ("q_00_c02", 3), ("q_00_c03", 1)],
    chunkIds := ["q_00_c01", "q_00_c02", "q_00_c03"] }

/-- The first chunk assembled from `scnGQ` under `resAllOk`. -/
def scnChunk1 : Chunk :=
  { id := "q_00_c01", query_id := "q_00", relevance := 3, source_url := "uA", code := "code" }

/-- Witness for C7: under full resolution the query is kept with two
resolved positives (scenario A); when the fetch of one of its two
positives fails, the query id vanishes from the output (scenario B). -/
theorem c7_post_resolution_invariant_witness :
    MIN_POSITIVES ≤ scnQuery.relevantIds.length ∧
    qidStr 0 ∉ (assemble resFailB scnGQ).2.map (fun q => q.id) :=
  ⟨((c7_post_resolution_invariant resAllOk scnGQ).1 scnQuery (by decide)).2,
   ((c7_post_resolution_invariant resFailB scnGQ).2 0
      ("parse json", [⟨"uA", 3⟩, ⟨"uB", 3⟩, ⟨"uC", 1⟩]) (by decide) (by decide)).1⟩

/-- C8: chunk ids in the output are pairwise distinct, and every id
referenced from any query — in `chunkIds`, in `relevantIds`, or as a key
of `relevanceScores` — is the id of a chunk in the output list (hence of
exactly one, by distinctness). -/
theorem c8_referential_integrity (res : String → Option String)
    (gq : List (String × List Candidate)) :
    ((assemble res gq).1.map (fun c => c.id)).Nodup ∧
    (∀ q ∈ (assemble res gq).2, ∀ i,
      (i ∈ q.chunkIds ∨ i ∈ q.relevantIds ∨ i ∈ q.relevanceScores.map Prod.fst) →
      i ∈ (assemble res gq).1.map (fun c => c.id)) := by
  obtain ⟨s1, s2, s3, s4, s5, s6, s7, s8⟩ := assembleGo_spec res gq 0
  refine ⟨s3, ?_⟩
  intro q hq i hi
  obtain ⟨p, pair, hget, hid, hquery, hchunk, hrel, hscore, hmin⟩ := s1 q hq
  have hkeys : q.relevanceScores.map Prod.fst = q.chunkIds := by
    rw [hscore, hchunk, List.map_map]
    rfl
  have hsub : ∀ i ∈ q.relevantIds, i ∈ q.chunkIds := by
    intro i hi
    rw [hrel] at hi
    rw [hchunk]
    rcases List.mem_map.mp hi with ⟨c, hc, hcid⟩
    exact List.mem_map.mpr ⟨c, List.mem_of_mem_filter hc, hcid⟩
  rcases hi with h | h | h
  · exact s7 q hq i h
  · exact s7 q hq i (hsub i h)
  · exact s7 q hq i (hkeys ▸ h)

/-- Witness for C8 on the concrete scenario-A run. -/
theorem c8_referential_integrity_witness :
    ((assemble resAllOk scnGQ).1.map (fun c => c.id)).Nodup ∧
    cidStr 0 1 ∈ (assemble resAllOk scnGQ).1.map (fun c => c.id) :=
  ⟨(c8_referential_integrity resAllOk scnGQ).1,
   (c8_referential_integrity resAllOk scnGQ).2 scnQuery (by decide) (cidStr 0 1)
     (Or.inl (by decide))⟩

/-- C10: every output chunk's `query_id` is the id of an output query
(exactly one, since output query ids are pairwise distinct), that chunk's
id appears in that query's `chunkIds`, and every query's `relevanceScores`
key sequence is exactly its `chunkIds` (so the key set equals the
`chunkIds` set). -/
theorem c10_no_orphan_chunks (res : String → Option String)
    (gq : List (String × List Candidate)) :
    (∀ c ∈ (assemble res gq).1, ∃ q, q ∈ (assemble res gq).2 ∧ c.query_id = q.id ∧
      c.id ∈ q.chunkIds) ∧
    ((assemble res gq).2.map (fun q => q.id)).Nodup ∧
    (∀ q ∈ (assemble res gq).2, q.relevanceScores.map Prod.fst = q.chunkIds) := by
  obtain ⟨s1, s2, s3, s4, s5, s6, s7, s8⟩ := assembleGo_spec res gq 0
  refine ⟨s2, s4, ?_⟩
  intro q hq
  obtain ⟨p, pair, hget, hid, hquery, hchunk, hrel, hscore, hmin⟩ := s1 q hq
  rw [hscore, hchunk, List.map_map]
  rfl

/-- Witness for C10 on the concrete scenario-A run. -/
theorem c10_no_orphan_chunks_witness :
    (∃ q, q ∈ (assemble resAllOk scnGQ).2 ∧ scnChunk1.query_id = q.id ∧
      scnChunk1.id ∈ q.chunkIds) ∧
    ((assemble resAllOk scnGQ).2.map (fun q => q.id)).Nodup ∧
    scnQuery.relevanceScores.map Prod.fst = scnQuery.chunkIds :=
  ⟨(c10_no_orphan_chunks resAllOk scnGQ).1 scnChunk1 (by decide),
   (c10_no_orphan_chunks resAllOk scnGQ).2.1,
   (c10_no_orphan_chunks resAllOk scnGQ).2.2 scnQuery (by decide)⟩

end Gitask
